import Mathlib

/-
Verification of the listing-normalization and opportunity-detection pipeline of
the oportunidades-vehiculos-mercado-libre repository, as a shallow embedding.

Numeric prices and exchange rates are modelled over the rationals.  Python
string operations used by the code (str.upper, str.lower on the ASCII
currency tags, scheme characters and the Desde marker) are modelled by the
ASCII Char.toUpper and Char.toLower of Lean, which agree with the Python
behaviour on the ASCII data the pipeline handles.
-/

namespace MLScrape

/-- Python str.upper() restricted to ASCII, as a character map over the
underlying list.  It coincides with String.toUpper of Lean but, unlike it,
evaluates inside the kernel. -/
def pyUpper (s : String) : String := ⟨s.data.map Char.toUpper⟩

/-- Embedding of normalize_price_ars (app_freemium.py lines 93-114, identical
copy in utils/scraper.py lines 35-56).  A Python triple that is
(None, None, None) exactly when price is None is modelled as an
Option of a triple.  The Python expression (currency or "ARS") yields "ARS"
for both None and the empty string, which are the two falsy string values. -/
def normalize_price_ars (price : Option ℚ) (currency : Option String)
    (usd_ars : ℚ) (misprice_ars_threshold : ℚ) : Option (ℚ × ℚ × String) :=
  match price with
  | none => none
  | some p =>
    let cur := pyUpper (match currency with
                | none => "ARS"
                | some s => if s = "" then "ARS" else s)
    if cur = "USD" then some (p * usd_ars, p, "USD")
    else if cur = "ARS" then
      if p < misprice_ars_threshold then some (p * usd_ars, p, "USD*")
      else some (p, p / usd_ars, "ARS")
    else some (p, p / usd_ars, cur)

end MLScrape

namespace MLScrape

/-- C1: for every non-null price with currency "ARS" and price below the
misprice threshold, normalize_price_ars returns
(price * usd_ars, price, "USD*"). -/
theorem c1_misprice_heuristic (p usd_ars th : ℚ) (h : p < th) :
    normalize_price_ars (some p) (some "ARS") usd_ars th
      = some (p * usd_ars, p, "USD*") := by
  simp only [normalize_price_ars]
  have hcur : pyUpper (if ("ARS" : String) = "" then "ARS" else "ARS") = "ARS" := by decide
  rw [hcur, if_neg (by decide), if_pos rfl, if_pos h]

/-- C1 witness: the concrete instance of the spec, price 50000 at rate 1350
and threshold 200000 yields price_ars 67500000, price_usd 50000, tag "USD*". -/
theorem c1_misprice_heuristic_witness :
    (50000 : ℚ) < 200000 ∧
    normalize_price_ars (some 50000) (some "ARS") 1350 200000
      = some (67500000, 50000, "USD*") := by
  refine ⟨by norm_num, ?_⟩
  rw [c1_misprice_heuristic 50000 1350 200000 (by norm_num)]
  norm_num

/-- C6 counterexample: the currency string "usd" differs from "ARS" and from
"USD", yet normalize_price_ars does not return the ARS-otherwise conversion
with the original tag: the code uppercases the currency first, so "usd"
lands in the USD branch with result (price * rate, price, "USD"). -/
theorem c6_counterexample :
    (("usd" : String) ≠ "ARS" ∧ ("usd" : String) ≠ "USD") ∧
    normalize_price_ars (some 100) (some "usd") 1350 200000
      ≠ some (100, 100 / 1350, "usd") := by
  refine ⟨⟨by decide, by decide⟩, ?_⟩
  have hcur : pyUpper (if ("usd" : String) = "" then "ARS" else "usd") = "USD" := by decide
  simp only [normalize_price_ars, hcur, if_true]
  simp only [ne_eq, Option.some.injEq, Prod.mk.injEq]
  rintro ⟨-, -, h3⟩
  exact absurd h3 (by decide)

/-- C6 amended: for every non-null price and every non-empty currency string
whose ASCII uppercasing is neither "ARS" nor "USD", normalize_price_ars
returns the ARS-otherwise conversion (price_ars = price,
price_usd = price / rate) and the tag is the UPPERCASED currency string
(the code applies str.upper before branching and returns the uppercased
value, not the string as given; the empty string is treated as "ARS"). -/
theorem c6_passthrough_amended (p usd_ars th : ℚ) (c : String)
    (h1 : pyUpper c ≠ "ARS") (h2 : pyUpper c ≠ "USD") (h3 : c ≠ "") :
    normalize_price_ars (some p) (some c) usd_ars th
      = some (p, p / usd_ars, pyUpper c) := by
  simp only [normalize_price_ars]
  rw [if_neg h3, if_neg h2, if_neg h1]

/-- C6 amended witness: currency "eur" passes through as tag "EUR" with the
ARS-otherwise conversion. -/
theorem c6_passthrough_amended_witness :
    (pyUpper "eur" ≠ "ARS" ∧ pyUpper "eur" ≠ "USD" ∧ ("eur" : String) ≠ "") ∧
    normalize_price_ars (some 100) (some "eur") 1350 200000
      = some (100, 100 / 1350, pyUpper "eur") :=
  ⟨⟨by decide, by decide, by decide⟩,
    c6_passthrough_amended 100 1350 200000 "eur" (by decide) (by decide) (by decide)⟩

/-- C8: for currency "USD" and non-null price, normalize_price_ars returns
price_ars = price * rate and price_usd = price, and over the rationals
price_ars / rate = price_usd whenever the rate is non-zero. -/
theorem c8_usd_roundtrip (p usd_ars th : ℚ) (h : usd_ars ≠ 0) :
    normalize_price_ars (some p) (some "USD") usd_ars th
      = some (p * usd_ars, p, "USD") ∧
    (p * usd_ars) / usd_ars = p := by
  constructor
  · simp only [normalize_price_ars]
    have hcur : pyUpper (if ("USD" : String) = "" then "ARS" else "USD") = "USD" := by decide
    rw [hcur, if_pos rfl]
  · field_simp

/-- C8 witness: concrete USD record at price 700 and rate 1350. -/
theorem c8_usd_roundtrip_witness :
    (1350 : ℚ) ≠ 0 ∧
    (normalize_price_ars (some 700) (some "USD") 1350 200000
      = some (700 * 1350, 700, "USD") ∧ ((700 : ℚ) * 1350) / 1350 = 700) :=
  ⟨by norm_num, c8_usd_roundtrip 700 1350 200000 (by norm_num)⟩

/-- C10: a null or empty currency is treated exactly as "ARS" by
normalize_price_ars, so a record with missing currency and price below the
misprice threshold is converted as a mistyped USD value and tagged "USD*". -/
theorem c10_missing_currency (p usd_ars th : ℚ) :
    normalize_price_ars (some p) none usd_ars th
      = normalize_price_ars (some p) (some "ARS") usd_ars th ∧
    normalize_price_ars (some p) (some "") usd_ars th
      = normalize_price_ars (some p) (some "ARS") usd_ars th ∧
    (p < th → normalize_price_ars (some p) none usd_ars th
      = some (p * usd_ars, p, "USD*")) := by
  refine ⟨rfl, rfl, ?_⟩
  intro h
  simp only [normalize_price_ars]
  have hcur : pyUpper "ARS" = "ARS" := by decide
  rw [hcur, if_neg (by decide), if_pos rfl, if_pos h]

/-- C10 witness: missing currency at price 50000 below the 200000 threshold
is converted as mistyped USD. -/
theorem c10_missing_currency_witness :
    (50000 : ℚ) < 200000 ∧
    normalize_price_ars (some 50000) none 1350 200000
      = some (50000 * 1350, 50000, "USD*") :=
  ⟨by norm_num, (c10_missing_currency 50000 1350 200000).2.2 (by norm_num)⟩

/-
Character-level facts about ASCII lowercasing, used by the URL
canonicalization model below.
-/

theorem uint32_le_toNat (a b : UInt32) : a ≤ b ↔ a.toNat ≤ b.toNat := by
  rw [UInt32.le_def, BitVec.le_def]
  rfl

theorem char_eq_iff_toNat (c d : Char) : c = d ↔ c.toNat = d.toNat := by
  rw [Char.ext_iff, UInt32.ext_iff]
  rfl

theorem char_isDigit_iff (c : Char) :
    Char.isDigit c = true ↔ 48 ≤ c.toNat ∧ c.toNat ≤ 57 := by
  simp only [Char.isDigit, Bool.and_eq_true, decide_eq_true_eq, ge_iff_le, uint32_le_toNat]
  constructor
  · rintro ⟨h1, h2⟩
    exact ⟨h1, h2⟩
  · rintro ⟨h1, h2⟩
    exact ⟨h1, h2⟩

theorem charOfNat_toNat (n : ℕ) (h : n.isValidChar) : (Char.ofNat n).toNat = n := by
  simp [Char.ofNat, h, Char.ofNatAux, Char.toNat, UInt32.toNat]

/-- Complete behaviour of Char.toLower: an ASCII uppercase letter moves up by
32 code points, any other character is unchanged. -/
theorem toLower_spec (c : Char) :
    (65 ≤ c.toNat ∧ c.toNat ≤ 90 ∧ (Char.toLower c).toNat = c.toNat + 32) ∨
    (¬(65 ≤ c.toNat ∧ c.toNat ≤ 90) ∧ Char.toLower c = c) := by
  unfold Char.toLower
  by_cases h : c.toNat ≥ 65 ∧ c.toNat ≤ 90
  · left
    refine ⟨h.1, h.2, ?_⟩
    rw [if_pos h]
    exact charOfNat_toNat _ (Or.inl (by omega))
  · right
    rw [if_neg h]
    exact ⟨h, rfl⟩

theorem toLower_idem (c : Char) :
    Char.toLower (Char.toLower c) = Char.toLower c := by
  rcases toLower_spec c with ⟨h1, h2, h3⟩ | ⟨h, he⟩
  · rcases toLower_spec (Char.toLower c) with ⟨g1, _, _⟩ | ⟨_, ge⟩
    · omega
    · exact ge
  · rw [he, he]

/-- Lowercasing cannot produce or destroy a character whose code is below 65
(this covers "?", "#", ":", "/", "_" and the digits). -/
theorem toLower_eq_low (c d : Char) (hd : d.toNat < 65) :
    Char.toLower c = d ↔ c = d := by
  rcases toLower_spec c with ⟨h1, _, h3⟩ | ⟨_, he⟩
  · constructor
    · intro h
      rw [char_eq_iff_toNat] at h
      omega
    · intro h
      rw [char_eq_iff_toNat] at h
      omega
  · rw [he]

/-
URL canonicalization.  _canonical_link (app_freemium.py lines 149-154,
identical copy in utils/scraper.py lines 58-63) returns
urlunsplit((scheme, netloc, path, "", "")) of urlsplit(u).  For strings free
of tab, newline and leading control characters this round trip equals the
input truncated at the first "?" or "#", with a leading valid scheme
lowercased; that composition is what is modelled here.
-/

/-- Start of the query or fragment component ("?" or "#"). -/
def pathStop (c : Char) : Bool := c = '?' || c = '#'

/-- Characters urllib.parse accepts inside a scheme: ASCII letters, digits,
"+", "-" and ".". -/
def schemeChar (c : Char) : Bool :=
  (65 ≤ c.toNat && c.toNat ≤ 90) || (97 ≤ c.toNat && c.toNat ≤ 122) ||
  (48 ≤ c.toNat && c.toNat ≤ 57) || c = '+' || c = '-' || c = '.'

/-- ASCII letter test, as in the scheme-validity check of urlsplit. -/
def asciiAlpha (c : Char) : Bool :=
  (65 ≤ c.toNat && c.toNat ≤ 90) || (97 ≤ c.toNat && c.toNat ≤ 122)

/-- Text strictly before the first colon. -/
def preColon (cs : List Char) : List Char := cs.takeWhile (fun c => c != ':')

/-- Text from the first colon on (empty when there is no colon). -/
def postColon (cs : List Char) : List Char := cs.dropWhile (fun c => c != ':')

/-- Scheme-validity test of urlsplit: nonempty, all scheme characters, and a
leading ASCII letter. -/
def schemeOk (pre : List Char) : Bool :=
  !pre.isEmpty && pre.all schemeChar && asciiAlpha (pre.headD ' ')

/-- Scheme normalization performed by the urlsplit/urlunsplit round trip:
when the text up to the first colon is a valid scheme, urlsplit lowercases
it and urlunsplit writes it back. -/
def lowerScheme (cs : List Char) : List Char :=
  match postColon cs with
  | [] => cs
  | _ :: _ =>
    if schemeOk (preColon cs) then (preColon cs).map Char.toLower ++ postColon cs
    else cs

/-- Embedding of _canonical_link: the empty (falsy) permalink maps to "",
any other URL is truncated at the first query or fragment delimiter with a
valid leading scheme lowercased. -/
def _canonical_link (u : String) : String :=
  if u = "" then ""
  else ⟨lowerScheme (u.data.takeWhile (fun c => !pathStop c))⟩

theorem postColon_hd {cs : List Char} {x : Char} {xs : List Char}
    (h : postColon cs = x :: xs) : x = ':' := by
  induction cs with
  | nil => simp [postColon] at h
  | cons c t ih =>
    rw [postColon, List.dropWhile_cons] at h
    by_cases hc : (c != ':') = true
    · rw [if_pos hc] at h
      exact ih h
    · rw [if_neg hc] at h
      cases h
      exact bne_eq_false_iff_eq.mp (Bool.not_eq_true _ ▸ Bool.of_not_eq_true hc)

theorem preColon_append (a t : List Char) (ha : ∀ x ∈ a, x ≠ ':') :
    preColon (a ++ ':' :: t) = a := by
  induction a with
  | nil => simp [preColon, List.takeWhile_cons]
  | cons c r ih =>
    rw [preColon, List.cons_append, List.takeWhile_cons]
    rw [if_pos (by simp [ha c (by simp)])]
    rw [preColon] at ih
    rw [ih (fun x hx => ha x (by simp [hx]))]

theorem postColon_append (a t : List Char) (ha : ∀ x ∈ a, x ≠ ':') :
    postColon (a ++ ':' :: t) = ':' :: t := by
  induction a with
  | nil => simp [postColon, List.dropWhile_cons]
  | cons c r ih =>
    rw [postColon, List.cons_append, List.dropWhile_cons]
    rw [if_pos (by simp [ha c (by simp)])]
    rw [postColon] at ih
    rw [ih (fun x hx => ha x (by simp [hx]))]

theorem toLower_schemeChar {c : Char} (h : schemeChar c = true) :
    schemeChar (Char.toLower c) = true := by
  have h43 : ('+' : Char).toNat = 43 := rfl
  have h45 : ('-' : Char).toNat = 45 := rfl
  have h46 : ('.' : Char).toNat = 46 := rfl
  simp only [schemeChar, Bool.or_eq_true, Bool.and_eq_true, decide_eq_true_eq,
    char_eq_iff_toNat, h43, h45, h46] at h ⊢
  rcases toLower_spec c with ⟨h1, h2, h3⟩ | ⟨_, he⟩
  · rw [h3]
    omega
  · rw [he]
    exact h

theorem toLower_asciiAlpha {c : Char} (h : asciiAlpha c = true) :
    asciiAlpha (Char.toLower c) = true := by
  simp only [asciiAlpha, Bool.or_eq_true, Bool.and_eq_true, decide_eq_true_eq] at h ⊢
  rcases toLower_spec c with ⟨h1, h2, h3⟩ | ⟨_, he⟩
  · rw [h3]
    omega
  · rw [he]
    exact h

theorem toLower_ne_colon {c : Char} (h : (c != ':') = true) :
    (Char.toLower c != ':') = true := by
  rw [bne_iff_ne] at h ⊢
  intro he
  exact h ((toLower_eq_low c ':' (by decide)).mp he)

theorem lowerScheme_of_post_nil {cs : List Char} (hp : postColon cs = []) :
    lowerScheme cs = cs := by
  rw [lowerScheme, hp]

theorem lowerScheme_of_not_ok {cs : List Char}
    (hok : ¬schemeOk (preColon cs) = true) : lowerScheme cs = cs := by
  rw [lowerScheme]
  rcases hp : postColon cs with _ | ⟨x, xs⟩
  · rfl
  · exact if_neg hok

theorem lowerScheme_of_ok {cs : List Char} {x : Char} {xs : List Char}
    (hp : postColon cs = x :: xs) (hok : schemeOk (preColon cs) = true) :
    lowerScheme cs = (preColon cs).map Char.toLower ++ postColon cs := by
  rw [lowerScheme, hp]
  exact if_pos hok

/-- The scheme-lowercasing pass is idempotent. -/
theorem lowerScheme_idem (cs : List Char) :
    lowerScheme (lowerScheme cs) = lowerScheme cs := by
  rcases hp : postColon cs with _ | ⟨x, xs⟩
  · rw [lowerScheme_of_post_nil hp, lowerScheme_of_post_nil hp]
  · by_cases hok : schemeOk (preColon cs) = true
    · have hx : x = ':' := postColon_hd hp
      subst hx
      have hpre : ∀ y ∈ preColon cs, y ≠ ':' := by
        intro y hy
        have hb : (y != ':') = true :=
          @List.mem_takeWhile_imp Char (fun c => c != ':') cs y hy
        exact bne_iff_ne.mp hb
      have hpre' : ∀ y ∈ (preColon cs).map Char.toLower, y ≠ ':' := by
        intro y hy
        rcases List.mem_map.mp hy with ⟨d, hd, rfl⟩
        exact bne_iff_ne.mp (toLower_ne_colon (bne_iff_ne.mpr (hpre d hd)))
      have heq := lowerScheme_of_ok hp hok
      rw [heq, hp]
      have hpreA := preColon_append ((preColon cs).map Char.toLower) xs hpre'
      have hpostA := postColon_append ((preColon cs).map Char.toLower) xs hpre'
      have hok' : schemeOk (preColon ((preColon cs).map Char.toLower ++ ':' :: xs))
          = true := by
        rw [hpreA]
        simp only [schemeOk, Bool.and_eq_true, Bool.not_eq_true'] at hok ⊢
        obtain ⟨⟨hne, hall⟩, hhd⟩ := hok
        refine ⟨⟨?_, ?_⟩, ?_⟩
        · rcases he : preColon cs with _ | ⟨p, ps⟩
          · rw [he] at hne
            simp at hne
          · rfl
        · rw [List.all_map]
          rw [List.all_eq_true] at hall ⊢
          intro y hy
          exact toLower_schemeChar (hall y hy)
        · rcases he : preColon cs with _ | ⟨p, ps⟩
          · rw [he] at hne
            simp at hne
          · rw [he] at hhd
            simp only [List.map_cons, List.headD_cons] at hhd ⊢
            exact toLower_asciiAlpha hhd
      rw [lowerScheme_of_ok hpostA hok', hpreA, hpostA, List.map_map]
      have : (preColon cs).map (Char.toLower ∘ Char.toLower)
          = (preColon cs).map Char.toLower :=
        List.map_congr_left (fun d _ => toLower_idem d)
      rw [this]
    · rw [lowerScheme_of_not_ok hok, lowerScheme_of_not_ok hok]

/-- Elements of the scheme-lowercased list still avoid the query and
fragment delimiters when the input did. -/
theorem lowerScheme_pathSafe {cs : List Char}
    (h : ∀ c ∈ cs, (!pathStop c) = true) :
    ∀ c ∈ lowerScheme cs, (!pathStop c) = true := by
  intro c hc
  rcases hp : postColon cs with _ | ⟨x, xs⟩
  · rw [lowerScheme_of_post_nil hp] at hc
    exact h c hc
  · by_cases hok : schemeOk (preColon cs) = true
    · rw [lowerScheme_of_ok hp hok] at hc
      rcases List.mem_append.mp hc with hm | hm
      · rcases List.mem_map.mp hm with ⟨d, hd, rfl⟩
        have hdin : d ∈ cs := List.takeWhile_subset _ hd
        have hds := h d hdin
        simp only [pathStop, Bool.not_eq_true', Bool.or_eq_false_iff,
          decide_eq_false_iff_not] at hds ⊢
        constructor
        · intro he
          exact hds.1 ((toLower_eq_low d '?' (by decide)).mp he)
        · intro he
          exact hds.2 ((toLower_eq_low d '#' (by decide)).mp he)
      · have : c ∈ cs := List.dropWhile_subset _ hm
        exact h c this
    · rw [lowerScheme_of_not_ok hok] at hc
      exact h c hc

/-- C5 part one: _canonical_link is idempotent for every URL. -/
theorem canonical_link_idem (u : String) :
    _canonical_link (_canonical_link u) = _canonical_link u := by
  by_cases hu : u = ""
  · rw [hu]
    rfl
  · have hv : _canonical_link u
        = ⟨lowerScheme (u.data.takeWhile (fun c => !pathStop c))⟩ := by
      rw [_canonical_link, if_neg hu]
    by_cases hL0 : _canonical_link u = ""
    · rw [hL0]
      rfl
    · rw [_canonical_link, if_neg hL0, hv]
      have hsafe : ∀ c ∈ lowerScheme (u.data.takeWhile (fun c => !pathStop c)),
          (!pathStop c) = true :=
        lowerScheme_pathSafe (fun c hc =>
          @List.mem_takeWhile_imp Char (fun c => !pathStop c) u.data c hc)
      have hdata : (⟨lowerScheme (u.data.takeWhile (fun c => !pathStop c))⟩ : String).data
          = lowerScheme (u.data.takeWhile (fun c => !pathStop c)) := rfl
      rw [hdata, List.takeWhile_eq_self_iff.mpr hsafe, lowerScheme_idem]

/-
Pagination-offset stripping.  canonicalize_ml_url (app_freemium.py
lines 117-146) rewrites the redirect-resolved URL with
re.sub("/_Desde_" followed by digits and an optional slash, anchored at the
end, IGNORECASE).  Because the pattern is end-anchored, at most one trailing
segment is removed per call.
-/

/-- The lowercased pagination marker as characters. -/
def desdeMarker : List Char := ['/', '_', 'd', 'e', 's', 'd', 'e', '_']

/-- The marker reversed, for matching from the end of the text. -/
def desdeMarkerRev : List Char := ['_', 'e', 'd', 's', 'e', 'd', '_', '/']

/-- The reversed text with one optional final slash removed, as consumed by
the optional "/?" of the pattern. -/
def desdeTrim (cs : List Char) : List Char :=
  if cs.reverse.headD ' ' = '/' then cs.reverse.tail else cs.reverse

/-- One application of the end-anchored replacement at the true end of the
text: drop one optional final "/", then a nonempty run of ASCII digits, then
the case-insensitive marker "/_Desde_"; when this suffix shape is absent the
text is unchanged.  (The Python digit class also accepts non-ASCII digits,
which do not occur in the URLs handled here.) -/
def stripDesdeList (cs : List Char) : List Char :=
  if (desdeTrim cs).takeWhile Char.isDigit ≠ [] ∧
      (((desdeTrim cs).dropWhile Char.isDigit).take 8).map Char.toLower = desdeMarkerRev then
    (((desdeTrim cs).dropWhile Char.isDigit).drop 8).reverse
  else cs

/-- The end anchor of a Python pattern also matches just before one final
newline, so a single trailing newline is peeled, the suffix rule applied,
and the newline restored. -/
def stripDesdeData (cs : List Char) : List Char :=
  if cs.getLast? = some '\n' then stripDesdeList cs.dropLast ++ ['\n']
  else stripDesdeList cs

/-- The canonical-URL rewrite of canonicalize_ml_url, on strings. -/
def stripDesde (s : String) : String := ⟨stripDesdeData s.data⟩

/-- Number of positions at which the marker occurs in a character list. -/
def countOccAux : List Char → ℕ
  | [] => 0
  | c :: t => (if (c :: t).take 8 = desdeMarker then 1 else 0) + countOccAux t

/-- Number of case-insensitive occurrences of "/_Desde_" in the text. -/
def countDesde (cs : List Char) : ℕ := countOccAux (cs.map Char.toLower)

theorem countOccAux_append_ge (a b : List Char) :
    countOccAux a + countOccAux b ≤ countOccAux (a ++ b) := by
  induction a with
  | nil => simp [countOccAux]
  | cons c t ih =>
    rw [List.cons_append, countOccAux, countOccAux]
    have hind : (if (c :: t).take 8 = desdeMarker then 1 else 0)
        ≤ (if (c :: (t ++ b)).take 8 = desdeMarker then 1 else 0) := by
      by_cases hm : (c :: t).take 8 = desdeMarker
      · have hlen : 8 ≤ (c :: t).length := by
          have := congrArg List.length hm
          rw [List.length_take] at this
          have h8 : desdeMarker.length = 8 := rfl
          rw [h8] at this
          omega
        have h2 : ((c :: t) ++ b).take 8 = desdeMarker := by
          rw [List.take_append_of_le_length hlen]
          exact hm
        rw [List.cons_append] at h2
        rw [if_pos hm, if_pos h2]
      · by_cases hm2 : (c :: (t ++ b)).take 8 = desdeMarker
        · rw [if_neg hm, if_pos hm2]
          omega
        · rw [if_neg hm, if_neg hm2]
    omega

theorem countOccAux_marker_prepend (x : List Char) :
    1 ≤ countOccAux (desdeMarker ++ x) := by
  have hu : desdeMarker ++ x = '/' :: (['_', 'd', 'e', 's', 'd', 'e', '_'] ++ x) := rfl
  rw [hu, countOccAux, ← hu]
  have ht : (desdeMarker ++ x).take 8 = desdeMarker := by
    have h8 : (8 : ℕ) = desdeMarker.length := rfl
    rw [h8, List.take_left]
  rw [ht, if_pos rfl]
  omega

theorem countDesde_ge_of_suffix {cs pre suf : List Char}
    (hdecomp : cs = pre ++ suf)
    (hm : (suf.map Char.toLower).take 8 = desdeMarker) :
    countDesde pre + 1 ≤ countDesde cs := by
  subst hdecomp
  rw [countDesde, countDesde, List.map_append]
  have h1 : 1 ≤ countOccAux (suf.map Char.toLower) := by
    rw [← List.take_append_drop 8 (suf.map Char.toLower), hm]
    exact countOccAux_marker_prepend _
  have h2 := countOccAux_append_ge (pre.map Char.toLower) (suf.map Char.toLower)
  omega

/-- When the suffix rule fires, the input splits into the kept part followed
by a chunk whose lowercasing starts with the marker. -/
theorem stripDesdeList_cases (cs : List Char) :
    stripDesdeList cs = cs ∨
    ∃ suf, cs = stripDesdeList cs ++ suf ∧
      (suf.map Char.toLower).take 8 = desdeMarker := by
  by_cases hc : (desdeTrim cs).takeWhile Char.isDigit ≠ [] ∧
      (((desdeTrim cs).dropWhile Char.isDigit).take 8).map Char.toLower = desdeMarkerRev
  · right
    have hstrip : stripDesdeList cs
        = (((desdeTrim cs).dropWhile Char.isDigit).drop 8).reverse := by
      rw [stripDesdeList, if_pos hc]
    obtain ⟨hds, hmk⟩ := hc
    set so := (if cs.reverse.headD ' ' = '/' then ['/'] else ([] : List Char)) with hso
    set rest := (desdeTrim cs).dropWhile Char.isDigit with hrest
    set ds := (desdeTrim cs).takeWhile Char.isDigit with hds'
    have hsplit : ds ++ rest = desdeTrim cs := List.takeWhile_append_dropWhile _ _
    have hsplit2 : ds ++ (rest.take 8 ++ rest.drop 8) = desdeTrim cs := by
      rw [List.take_append_drop]
      exact hsplit
    have hrest8 : 8 ≤ rest.length := by
      have := congrArg List.length hmk
      rw [List.length_map, List.length_take] at this
      have h8 : desdeMarkerRev.length = 8 := rfl
      rw [h8] at this
      omega
    -- reconstruct cs from the reversed pieces
    have hcsrev : cs.reverse = so ++ desdeTrim cs := by
      rw [hso]
      by_cases hs : cs.reverse.headD ' ' = '/'
      · rw [if_pos hs, desdeTrim, if_pos hs]
        rcases hrv : cs.reverse with _ | ⟨h0, t0⟩
        · rw [hrv] at hs
          simp at hs
        · rw [hrv] at hs
          simp only [List.headD_cons] at hs
          rw [hs]
          rfl
      · rw [if_neg hs, desdeTrim, if_neg hs]
        rfl
    refine ⟨(rest.take 8).reverse ++ (ds.reverse ++ so.reverse), ?_, ?_⟩
    · rw [hstrip]
      apply List.reverse_injective
      rw [hcsrev, ← hsplit2]
      simp only [List.reverse_append, List.reverse_reverse, List.append_assoc]
    · rw [List.map_append, List.map_reverse]
      have hlenrev : (((rest.take 8).map Char.toLower).reverse).length = 8 := by
        rw [List.length_reverse, List.length_map, List.length_take]
        omega
      rw [List.take_append_of_le_length (le_of_eq hlenrev.symm)]
      rw [List.take_of_length_le (le_of_eq hlenrev)]
      rw [hmk]
      rfl
  · left
    rw [stripDesdeList, if_neg hc]

theorem stripDesdeList_of_no_marker {cs : List Char} (h : countDesde cs = 0) :
    stripDesdeList cs = cs := by
  rcases stripDesdeList_cases cs with he | ⟨suf, hde, hm⟩
  · exact he
  · have := countDesde_ge_of_suffix hde hm
    omega

theorem countDesde_dropLast_le (cs : List Char) :
    countDesde cs.dropLast ≤ countDesde cs := by
  rcases he : cs with _ | ⟨c, t⟩
  · simp
  · have hne : cs ≠ [] := by rw [he]; simp
    have hrec : cs.dropLast ++ [cs.getLast hne] = cs := List.dropLast_append_getLast hne
    rw [← he]
    conv_rhs => rw [← hrec]
    rw [countDesde, countDesde, List.map_append]
    have := countOccAux_append_ge (cs.dropLast.map Char.toLower)
      ([cs.getLast hne].map Char.toLower)
    omega

theorem stripDesdeList_idem {cs : List Char} (h : countDesde cs ≤ 1) :
    stripDesdeList (stripDesdeList cs) = stripDesdeList cs := by
  rcases stripDesdeList_cases cs with he | ⟨suf, hde, hm⟩
  · rw [he, he]
  · have hz : countDesde (stripDesdeList cs) = 0 := by
      have := countDesde_ge_of_suffix hde hm
      omega
    exact stripDesdeList_of_no_marker hz

theorem stripDesdeData_idem {cs : List Char} (h : countDesde cs ≤ 1) :
    stripDesdeData (stripDesdeData cs) = stripDesdeData cs := by
  by_cases hn : cs.getLast? = some '\n'
  · have h1 : stripDesdeData cs = stripDesdeList cs.dropLast ++ ['\n'] := by
      rw [stripDesdeData, if_pos hn]
    rw [h1, stripDesdeData, if_pos (List.getLast?_concat _), List.dropLast_concat]
    have hc : countDesde cs.dropLast ≤ 1 := le_trans (countDesde_dropLast_le _) h
    rw [stripDesdeList_idem hc]
  · have h1 : stripDesdeData cs = stripDesdeList cs := by
      rw [stripDesdeData, if_neg hn]
    rw [h1]
    rcases stripDesdeList_cases cs with he | ⟨suf, hde, hm⟩
    · rw [he, stripDesdeData, if_neg hn, he]
    · have hz : countDesde (stripDesdeList cs) = 0 := by
        have := countDesde_ge_of_suffix hde hm
        omega
      by_cases hn2 : (stripDesdeList cs).getLast? = some '\n'
      · rw [stripDesdeData, if_pos hn2]
        have hzd : countDesde (stripDesdeList cs).dropLast = 0 := by
          have := countDesde_dropLast_le (stripDesdeList cs)
          omega
        rw [stripDesdeList_of_no_marker hzd]
        have hne : stripDesdeList cs ≠ [] := by
          intro h0
          rw [h0] at hn2
          simp at hn2
        have hlast : (stripDesdeList cs).getLast hne = '\n' := by
          rw [List.getLast_eq_iff_getLast?_eq_some]
          exact hn2
        conv_rhs => rw [← List.dropLast_append_getLast hne, hlast]
      · rw [stripDesdeData, if_neg hn2]
        exact stripDesdeList_of_no_marker hz

/-- Outcome of the HTTP GET inside canonicalize_ml_url: either a response
with a status code and the redirect-resolved final URL, or a raised
transport exception with its message.  The network call itself lies outside
the shallow embedding, so the function is modelled as a pure function of the
request outcome. -/
inductive FetchOutcome where
  | response (status : Int) (finalUrl : String)
  | exn (msg : String)
deriving DecidableEq

/-- The status slot of the meta dict of canonicalize_ml_url: None before the
request, an HTTP status code, or the text "error: " followed by the
exception message. -/
inductive MetaStatus where
  | unset
  | httpCode (n : Int)
  | errorText (s : String)
deriving DecidableEq

/-- The meta dict returned by canonicalize_ml_url. -/
structure CanonMeta where
  verification : Bool
  status : MetaStatus
  final_url : Option String
deriving DecidableEq

/-- Python substring membership (the "in" operator on strings). -/
def containsSub (pat : List Char) : List Char → Bool
  | [] => pat.isEmpty
  | c :: t => ((c :: t).take pat.length == pat) || containsSub pat t

/-- Python substring membership on strings. -/
def pyIn (pat hay : String) : Bool := containsSub pat.data hay.data

/-- Embedding of canonicalize_ml_url (app_freemium.py lines 117-146).  On a
response, the verification test mirrors the Python operator precedence:
"account-verification" in the final URL, or ("/gz/" in it and
"verification" in it); a flagged URL is returned unchanged, otherwise the
final URL is returned with a trailing Desde segment stripped.  On a raised
exception the original URL is returned with the error recorded. -/
def canonicalize_ml_url (u : String) (fetch : FetchOutcome) : String × CanonMeta :=
  match fetch with
  | .exn e => (u, ⟨false, .errorText ("error: " ++ e), none⟩)
  | .response st fin =>
    if pyIn "account-verification" fin || (pyIn "/gz/" fin && pyIn "verification" fin) then
      (u, ⟨true, .httpCode st, some fin⟩)
    else
      (stripDesde fin, ⟨false, .httpCode st, some fin⟩)

/-- C9: for every input URL and every transport error raised by the GET, the
except branch of canonicalize_ml_url yields the original URL unchanged, with
meta.status carrying the error description, no verification flag, and no
final URL; the exception does not propagate. -/
theorem c9_transport_error_recovery (u e : String) :
    canonicalize_ml_url u (FetchOutcome.exn e)
      = (u, ⟨false, MetaStatus.errorText ("error: " ++ e), none⟩) := rfl

/-- C5 counterexample: on the URL "https://x/_Desde_1/_Desde_2" the
end-anchored Desde stripping removes only the last pagination segment, so a
second application strips again and the result changes: canonicalization is
not idempotent on this URL. -/
theorem c5_counterexample :
    stripDesde "https://x/_Desde_1/_Desde_2" = "https://x/_Desde_1" ∧
    stripDesde (stripDesde "https://x/_Desde_1/_Desde_2") = "https://x" ∧
    stripDesde (stripDesde "https://x/_Desde_1/_Desde_2")
      ≠ stripDesde "https://x/_Desde_1/_Desde_2" := by
  refine ⟨by decide, by decide, by decide⟩

/-- C5 amended: permalink canonicalization (_canonical_link) is idempotent
for every URL; the Desde stripping of canonicalize_ml_url is idempotent for
every URL in which the marker "/_Desde_" occurs at most once
(case-insensitively), but not in general, since each application removes
only the last stacked pagination segment. -/
theorem c5_idempotence_amended (u : String) :
    _canonical_link (_canonical_link u) = _canonical_link u ∧
    (countDesde u.data ≤ 1 → stripDesde (stripDesde u) = stripDesde u) := by
  refine ⟨canonical_link_idem u, fun h => ?_⟩
  have hd : (stripDesde u).data = stripDesdeData u.data := rfl
  rw [stripDesde, hd, stripDesdeData_idem h]
  rfl

/-- C5 amended witness: a URL with a single pagination suffix, stripped
stably, and an idempotent permalink canonicalization at a concrete URL. -/
theorem c5_idempotence_amended_witness :
    countDesde ("http://a/_Desde_7").data ≤ 1 ∧
    _canonical_link (_canonical_link "http://a/_Desde_7")
      = _canonical_link "http://a/_Desde_7" ∧
    stripDesde (stripDesde "http://a/_Desde_7") = stripDesde "http://a/_Desde_7" :=
  ⟨by decide, (c5_idempotence_amended "http://a/_Desde_7").1,
    (c5_idempotence_amended "http://a/_Desde_7").2 (by decide)⟩

/-
Global deduplication across the per-year scraping loop (app_freemium.py
lines 407-471, in particular the per-row loop at lines 459-469; the same
loop appears in utils/scraper.py lines 245-257).
-/

/-- A raw scraped row as consumed by the consolidation loop: the permalink
and year fields the loop inspects, plus a payload index standing for the
remaining extracted fields, which the loop copies through untouched. -/
structure RawRow where
  permalink : Option String
  year : Option Int
  payload : ℕ
deriving DecidableEq

/-- A consolidated row: the kept raw row with the canonical key attached
and the year imputed from the query year when it was missing. -/
structure OutRow where
  permalink : Option String
  year : Option Int
  payload : ℕ
  permalink_key : String
deriving DecidableEq

/-- The canonical key computed in the loop: _canonical_link of the
permalink, a missing permalink reading as "" (the dict .get default). -/
def rowKeyOf (r : RawRow) : String := _canonical_link (r.permalink.getD "")

/-- One kept row: the key is attached and a missing or zero year is
replaced by the query year.  The Python test is
r.get("year") in [None, "", 0]; the empty-string sentinel is subsumed by
the missing case in this integer model. -/
def mkOut (y : Int) (k : String) (r : RawRow) : OutRow :=
  { permalink := r.permalink
    year := if r.year = none ∨ r.year = some 0 then some y else r.year
    payload := r.payload
    permalink_key := k }

/-- One iteration of the global dedup loop: a row with an empty or
already-seen canonical key is skipped; otherwise its key enters the seen
set and the annotated row is appended. -/
def dedupStep (st : List String × List OutRow) (p : Int × RawRow) :
    List String × List OutRow :=
  let k := rowKeyOf p.2
  if k = "" ∨ k ∈ st.1 then st
  else (k :: st.1, st.2 ++ [mkOut p.1 k p.2])

/-- Consolidation of a whole run: every scraped row tagged with the year of
the query that produced it, in fetch order, folded through the dedup loop
from an empty seen set.  The nested per-year loop of the code threads a
single (seen set, accumulated rows) state through all rows, which is
exactly this flattened fold. -/
def consolidate (input : List (Int × RawRow)) : List OutRow :=
  (input.foldl dedupStep ([], [])).2

theorem consolidate_go (input : List (Int × RawRow)) :
    ∀ seen acc,
      (acc.map OutRow.permalink_key).Nodup →
      (∀ o ∈ acc, o.permalink_key ≠ "" ∧ o.permalink_key ∈ seen) →
      ((input.foldl dedupStep (seen, acc)).2.map OutRow.permalink_key).Nodup ∧
      (∀ o ∈ (input.foldl dedupStep (seen, acc)).2, o.permalink_key ≠ "") ∧
      (∀ o ∈ (input.foldl dedupStep (seen, acc)).2,
        o ∈ acc ∨ (o.permalink_key ∉ seen ∧
          ∃ p, input.find? (fun q => rowKeyOf q.2 == o.permalink_key) = some p ∧
            o = mkOut p.1 (rowKeyOf p.2) p.2)) := by
  induction input with
  | nil =>
    intro seen acc h1 h2
    exact ⟨h1, fun o ho => (h2 o ho).1, fun o ho => Or.inl ho⟩
  | cons q rest ih =>
    intro seen acc h1 h2
    rw [List.foldl_cons]
    by_cases hk : rowKeyOf q.2 = "" ∨ rowKeyOf q.2 ∈ seen
    · have hstep : dedupStep (seen, acc) q = (seen, acc) := by
        rw [dedupStep, if_pos hk]
      rw [hstep]
      obtain ⟨g1, g2, g3⟩ := ih seen acc h1 h2
      refine ⟨g1, g2, fun o ho => ?_⟩
      rcases g3 o ho with hin | ⟨hnot, p, hf, he⟩
      · exact Or.inl hin
      · refine Or.inr ⟨hnot, p, ?_, he⟩
        rw [List.find?_cons_of_neg]
        · exact hf
        · have hne : rowKeyOf q.2 ≠ o.permalink_key := by
            rcases hk with hk0 | hkseen
            · rw [hk0]
              exact fun hc => (g2 o ho) hc.symm
            · intro hc
              rw [hc] at hkseen
              exact hnot hkseen
          simp [hne]
    · push_neg at hk
      obtain ⟨hk0, hkseen⟩ := hk
      have hstep : dedupStep (seen, acc) q
          = (rowKeyOf q.2 :: seen, acc ++ [mkOut q.1 (rowKeyOf q.2) q.2]) := by
        rw [dedupStep, if_neg (by push_neg; exact ⟨hk0, hkseen⟩)]
      rw [hstep]
      have h1' : ((acc ++ [mkOut q.1 (rowKeyOf q.2) q.2]).map OutRow.permalink_key).Nodup := by
        rw [List.map_append]
        refine List.Nodup.append h1 (by simp) ?_
        intro a ha hb
        simp only [List.map_cons, List.map_nil, List.mem_cons,
          List.not_mem_nil, or_false] at hb
        rcases List.mem_map.mp ha with ⟨o, ho, rfl⟩
        have := (h2 o ho).2
        rw [hb] at this
        have hkey : (mkOut q.1 (rowKeyOf q.2) q.2).permalink_key = rowKeyOf q.2 := rfl
        rw [hkey] at this
        exact hkseen this
      have h2' : ∀ o ∈ acc ++ [mkOut q.1 (rowKeyOf q.2) q.2],
          o.permalink_key ≠ "" ∧ o.permalink_key ∈ rowKeyOf q.2 :: seen := by
        intro o ho
        rcases List.mem_append.mp ho with hoa | hob
        · exact ⟨(h2 o hoa).1, List.mem_cons_of_mem _ (h2 o hoa).2⟩
        · simp only [List.mem_singleton] at hob
          subst hob
          exact ⟨hk0, List.mem_cons_self _ _⟩
      obtain ⟨g1, g2, g3⟩ := ih (rowKeyOf q.2 :: seen) (acc ++ [mkOut q.1 (rowKeyOf q.2) q.2]) h1' h2'
      refine ⟨g1, g2, fun o ho => ?_⟩
      rcases g3 o ho with hin | ⟨hnot, p, hf, he⟩
      · rcases List.mem_append.mp hin with hoa | hob
        · exact Or.inl hoa
        · simp only [List.mem_singleton] at hob
          subst hob
          refine Or.inr ⟨hkseen, q, ?_, rfl⟩
          have hkey : (mkOut q.1 (rowKeyOf q.2) q.2).permalink_key = rowKeyOf q.2 := rfl
          rw [hkey, List.find?_cons_of_pos _ (by simp)]
      · have hne : rowKeyOf q.2 ≠ o.permalink_key := by
          intro hc
          exact hnot (hc ▸ List.mem_cons_self _ _)
        refine Or.inr ⟨fun hs => hnot (List.mem_cons_of_mem _ hs), p, ?_, he⟩
        rw [List.find?_cons_of_neg]
        · exact hf
        · simp [hne]

/-- C2: consolidation keeps no two records with the same canonical
permalink key, every kept record has a non-empty key, and the record kept
for a key is built from the first row of the run whose permalink maps to
that key (with the year of the query that produced it imputed when the row
had none). -/
theorem c2_dedup_invariant (input : List (Int × RawRow)) :
    ((consolidate input).map OutRow.permalink_key).Nodup ∧
    (∀ o ∈ consolidate input, o.permalink_key ≠ "") ∧
    (∀ o ∈ consolidate input, ∃ p,
      input.find? (fun q => rowKeyOf q.2 == o.permalink_key) = some p ∧
      o = mkOut p.1 (rowKeyOf p.2) p.2) := by
  obtain ⟨g1, g2, g3⟩ := consolidate_go input [] [] (by simp) (by simp)
  refine ⟨g1, g2, fun o ho => ?_⟩
  rcases g3 o ho with hin | ⟨_, p, hf, he⟩
  · simp at hin
  · exact ⟨p, hf, he⟩

/-- C2 witness: a run over years 2016 and 2017 in which two rows share a
canonical permalink (differing query string and fragment) and one row has
no permalink; one record survives, with a non-empty unique key, built from
the first-seen row with its missing year imputed from the 2016 query. -/
theorem c2_dedup_invariant_witness :
    ((consolidate [(2016, ⟨some "http://a/x?t=1", none, 0⟩),
        (2017, ⟨some "http://a/x#frag", some 0, 1⟩),
        (2017, ⟨none, some 2017, 2⟩)]).map OutRow.permalink_key).Nodup ∧
    (⟨some "http://a/x?t=1", some 2016, 0, "http://a/x"⟩ : OutRow).permalink_key ≠ "" :=
  ⟨(c2_dedup_invariant [(2016, ⟨some "http://a/x?t=1", none, 0⟩),
      (2017, ⟨some "http://a/x#frag", some 0, 1⟩),
      (2017, ⟨none, some 2017, 2⟩)]).1,
    (c2_dedup_invariant [(2016, ⟨some "http://a/x?t=1", none, 0⟩),
      (2017, ⟨some "http://a/x#frag", some 0, 1⟩),
      (2017, ⟨none, some 2017, 2⟩)]).2.1 _ (by decide)⟩

/-
Comparable grouping: build_groups_by_keys (app_freemium.py lines 191-220,
identical copy in utils/scraper.py lines 97-124) and the comparable base
table comp_base (app_freemium.py line 565).
-/

/-- A row of the table passed to the grouping step: the two key columns and
the normalized price, plus a payload index standing for the remaining
columns.  Missing values are none, as pandas NA. -/
structure CompRow where
  title_group : Option String
  year : Option Int
  price_ars : Option ℚ
  payload : ℕ
deriving DecidableEq

/-- Key-column stringification of the code: NA becomes the sentinel
"__NA__", any other value its string form (a string is itself). -/
def naStr : Option String → String
  | none => "__NA__"
  | some s => s

/-- An Int64 key column stringified the same way. -/
def naInt : Option Int → String
  | none => "__NA__"
  | some n => toString n

/-- The grouping key of a row, for key_cols = [title_group, year]. -/
def groupKey (r : CompRow) : String × String := (naStr r.title_group, naInt r.year)

/-- Member prices of a group: the non-NA price_ars values of the rows with
this key, which are what the pandas mean and count aggregations see. -/
def groupPrices (df : List CompRow) (k : String × String) : List ℚ :=
  (df.filter (fun r => groupKey r == k)).filterMap CompRow.price_ars

/-- group_n of a key: the pandas count aggregation, the number of non-NA
prices in the group. -/
def group_n (df : List CompRow) (k : String × String) : ℕ :=
  (groupPrices df k).length

/-- group_mean_ars of a key: the pandas mean aggregation, the sum of the
non-NA prices over their count.  The empty case (NaN in pandas) is the
division by zero of the rationals; it is never joined when min_group_size
is at least one. -/
def group_mean_ars (df : List CompRow) (k : String × String) : ℚ :=
  (groupPrices df k).sum / (group_n df k : ℚ)

/-- The distinct keys of the table, first occurrences first.  (The groupby
of pandas additionally sorts its keys; the merge result observed below is
insensitive to the order of the aggregated frame.) -/
def groupKeys (df : List CompRow) : List (String × String) :=
  df.foldl (fun acc r => if groupKey r ∈ acc then acc else acc ++ [groupKey r]) []

/-- The aggregated frame g: one row per key, carrying mean and count. -/
def groupAgg (df : List CompRow) : List ((String × String) × ℚ × ℕ) :=
  (groupKeys df).map (fun k => (k, group_mean_ars df k, group_n df k))

/-- g_valid: the aggregated rows meeting the size threshold. -/
def g_valid (df : List CompRow) (min_group_size : ℤ) :
    List ((String × String) × ℚ × ℕ) :=
  (groupAgg df).filter (fun a => min_group_size ≤ (a.2.2 : ℤ))

/-- A merged row: an input row with the group statistics columns. -/
structure GroupRow where
  row : CompRow
  group_mean_ars : ℚ
  group_n : ℕ
deriving DecidableEq

/-- build_groups_by_keys: the inner merge of the table with g_valid on the
key columns, in left order; rows of invalid groups match nothing and drop
out. -/
def build_groups_by_keys (df : List CompRow) (min_group_size : ℤ) : List GroupRow :=
  df.filterMap (fun r =>
    ((g_valid df min_group_size).find? (fun a => a.1 == groupKey r)).map
      (fun a => ⟨r, a.2.1, a.2.2⟩))

/-- comp_base: the rows with non-NA title_group, year and price_ars, which
is what the pipeline feeds to the grouping step. -/
def comp_base (df : List CompRow) : List CompRow :=
  df.filter (fun r => r.title_group.isSome && r.year.isSome && r.price_ars.isSome)

theorem mem_groupKeys_aux (l : List CompRow) :
    ∀ acc x, (x ∈ l.foldl
        (fun acc r => if groupKey r ∈ acc then acc else acc ++ [groupKey r]) acc
      ↔ x ∈ acc ∨ ∃ r ∈ l, groupKey r = x) := by
  induction l with
  | nil =>
    intro acc x
    simp
  | cons c t ih =>
    intro acc x
    rw [List.foldl_cons]
    by_cases hc : groupKey c ∈ acc
    · rw [if_pos hc, ih]
      constructor
      · rintro (hx | ⟨r, hr, hrx⟩)
        · exact Or.inl hx
        · exact Or.inr ⟨r, List.mem_cons_of_mem _ hr, hrx⟩
      · rintro (hx | ⟨r, hr, hrx⟩)
        · exact Or.inl hx
        · rcases List.mem_cons.mp hr with rfl | hr'
          · exact Or.inl (hrx ▸ hc)
          · exact Or.inr ⟨r, hr', hrx⟩
    · rw [if_neg hc, ih]
      constructor
      · rintro (hx | ⟨r, hr, hrx⟩)
        · rcases List.mem_append.mp hx with hx' | hx'
          · exact Or.inl hx'
          · simp only [List.mem_singleton] at hx'
            exact Or.inr ⟨c, List.mem_cons_self _ _, hx'.symm⟩
        · exact Or.inr ⟨r, List.mem_cons_of_mem _ hr, hrx⟩
      · rintro (hx | ⟨r, hr, hrx⟩)
        · exact Or.inl (List.mem_append.mpr (Or.inl hx))
        · rcases List.mem_cons.mp hr with rfl | hr'
          · exact Or.inl (List.mem_append.mpr (Or.inr (by simp [hrx])))
          · exact Or.inr ⟨r, hr', hrx⟩

theorem mem_groupKeys {df : List CompRow} {x : String × String} :
    x ∈ groupKeys df ↔ ∃ r ∈ df, groupKey r = x := by
  rw [groupKeys, mem_groupKeys_aux]
  simp

theorem nodup_groupKeys_aux (l : List CompRow) :
    ∀ acc, acc.Nodup → (l.foldl
      (fun acc r => if groupKey r ∈ acc then acc else acc ++ [groupKey r]) acc).Nodup := by
  induction l with
  | nil =>
    intro acc h
    exact h
  | cons c t ih =>
    intro acc h
    rw [List.foldl_cons]
    by_cases hc : groupKey c ∈ acc
    · rw [if_pos hc]
      exact ih acc h
    · rw [if_neg hc]
      refine ih _ (List.Nodup.append h (by simp) ?_)
      intro a ha hb
      simp only [List.mem_singleton] at hb
      subst hb
      exact hc ha

theorem nodup_groupKeys (df : List CompRow) : (groupKeys df).Nodup :=
  nodup_groupKeys_aux df [] List.nodup_nil

theorem find?_g_valid_aux (df : List CompRow) (min_group_size : ℤ)
    (k : String × String) :
    ∀ ks : List (String × String), ks.Nodup → k ∈ ks →
    (((ks.map (fun k => (k, group_mean_ars df k, group_n df k))).filter
        (fun a => min_group_size ≤ (a.2.2 : ℤ))).find? (fun a => a.1 == k))
      = if min_group_size ≤ (group_n df k : ℤ) then
          some (k, group_mean_ars df k, group_n df k)
        else none := by
  intro ks
  induction ks with
  | nil =>
    intro _ hk
    simp at hk
  | cons k0 rest ih =>
    intro hnd hk
    have hnd' := (List.nodup_cons.mp hnd).2
    have hk0nin := (List.nodup_cons.mp hnd).1
    rw [List.map_cons, List.filter_cons]
    by_cases hv : min_group_size ≤ ((group_n df k0 : ℤ))
    · rw [if_pos (by simpa using hv)]
      by_cases hkk : k0 = k
      · subst hkk
        rw [List.find?_cons_of_pos _ (by simp), if_pos hv]
      · rw [List.find?_cons_of_neg _ (by simp [hkk])]
        rcases List.mem_cons.mp hk with rfl | hk'
        · exact absurd rfl hkk
        · exact ih hnd' hk'
    · rw [if_neg (by simpa using hv)]
      by_cases hkk : k0 = k
      · subst hkk
        rw [if_neg hv]
        rw [List.find?_eq_none]
        intro a ha
        have ha' := List.mem_filter.mp ha
        rcases List.mem_map.mp ha'.1 with ⟨k', hk', rfl⟩
        simp only [beq_iff_eq]
        intro hcontra
        rw [hcontra] at hk'
        exact hk0nin hk'
      · rcases List.mem_cons.mp hk with rfl | hk'
        · exact absurd rfl hkk
        · exact ih hnd' hk'

theorem find?_g_valid (df : List CompRow) (min_group_size : ℤ)
    {k : String × String} (hk : k ∈ groupKeys df) :
    ((g_valid df min_group_size).find? (fun a => a.1 == k))
      = if min_group_size ≤ (group_n df k : ℤ) then
          some (k, group_mean_ars df k, group_n df k)
        else none := by
  rw [g_valid, groupAgg]
  exact find?_g_valid_aux df min_group_size k (groupKeys df) (nodup_groupKeys df) hk

theorem build_step_eq (df : List CompRow) (min_group_size : ℤ)
    {r : CompRow} (hr : r ∈ df) :
    ((g_valid df min_group_size).find? (fun a => a.1 == groupKey r)).map
      (fun a => (⟨r, a.2.1, a.2.2⟩ : GroupRow))
    = if min_group_size ≤ (group_n df (groupKey r) : ℤ) then
        some ⟨r, group_mean_ars df (groupKey r), group_n df (groupKey r)⟩
      else none := by
  rw [find?_g_valid df min_group_size (mem_groupKeys.mpr ⟨r, hr, rfl⟩)]
  by_cases hv : min_group_size ≤ (group_n df (groupKey r) : ℤ)
  · rw [if_pos hv, if_pos hv]
    rfl
  · rw [if_neg hv, if_neg hv]
    rfl

theorem mem_build_groups (df : List CompRow) (min_group_size : ℤ)
    {m : GroupRow} (hm : m ∈ build_groups_by_keys df min_group_size) :
    m.row ∈ df ∧ min_group_size ≤ (group_n df (groupKey m.row) : ℤ) ∧
    m.group_n = group_n df (groupKey m.row) ∧
    m.group_mean_ars = group_mean_ars df (groupKey m.row) := by
  rcases List.mem_filterMap.mp hm with ⟨r, hr, he⟩
  rw [build_step_eq df min_group_size hr] at he
  by_cases hv : min_group_size ≤ (group_n df (groupKey r) : ℤ)
  · rw [if_pos hv] at he
    cases he
    exact ⟨hr, hv, rfl, rfl⟩
  · rw [if_neg hv] at he
    cases he

/-- C3: for every input table and every minimum group size, the keyed merge
of build_groups_by_keys drops every record of a group with exactly
min_group_size - 1 members (no merged record carries that key at all, inner
join) and keeps every record of a group with exactly min_group_size
members, whose merged group_n column equals min_group_size.  A member of a
group is a row counted by the pandas count aggregation, i.e. one with a
non-NA price_ars; in the pipeline the input is comp_base, whose rows all
have non-NA prices. -/
theorem c3_grouping_threshold (df : List CompRow) (min_group_size : ℤ) :
    (∀ r ∈ df, (group_n df (groupKey r) : ℤ) = min_group_size - 1 →
      ∀ m ∈ build_groups_by_keys df min_group_size, groupKey m.row ≠ groupKey r) ∧
    (∀ r ∈ df, (group_n df (groupKey r) : ℤ) = min_group_size →
      ∃ m ∈ build_groups_by_keys df min_group_size,
        m.row = r ∧ (m.group_n : ℤ) = min_group_size) := by
  constructor
  · intro r hr hcount m hm hkey
    have hprops := mem_build_groups df min_group_size hm
    rw [hkey, hcount] at hprops
    omega
  · intro r hr hcount
    refine ⟨⟨r, group_mean_ars df (groupKey r), group_n df (groupKey r)⟩, ?_, rfl, hcount⟩
    apply List.mem_filterMap.mpr
    refine ⟨r, hr, ?_⟩
    rw [build_step_eq df min_group_size hr, if_pos (by omega)]

/-- C7 amended: before undervalue_pct is computed the pipeline drops every
record with NA title_group, year or price_ars (comp_base dropna), so the
numerator of (group_mean_ars - price_ars) / group_mean_ars is never null,
and every merged comparable record still has a non-NA price; records whose
group_mean_ars is zero are NOT excluded anywhere (see the counterexample),
the division is performed for them and yields no opportunity. -/
theorem c7_null_guard_amended (df : List CompRow) (min_group_size : ℤ) :
    (∀ r ∈ comp_base df,
      r.title_group ≠ none ∧ r.year ≠ none ∧ r.price_ars ≠ none) ∧
    (∀ m ∈ build_groups_by_keys (comp_base df) min_group_size,
      m.row.price_ars ≠ none) := by
  have hbase : ∀ r ∈ comp_base df,
      r.title_group ≠ none ∧ r.year ≠ none ∧ r.price_ars ≠ none := by
    intro r hr
    have hp := (List.mem_filter.mp hr).2
    simp only [Bool.and_eq_true, Option.isSome_iff_ne_none] at hp
    exact ⟨hp.1.1, hp.1.2, hp.2⟩
  refine ⟨hbase, fun m hm => ?_⟩
  exact (hbase m.row (mem_build_groups (comp_base df) min_group_size hm).1).2.2

/-- C3 witness: in a table holding three records of group ("a", 2017) and
two of group ("b", 2017), with min_group_size 3, a record of the
three-member group is merged with group_n 3, and no merged record carries
the key of the two-member group. -/
theorem c3_grouping_threshold_witness :
    ((group_n [⟨some "a", some 2017, some 1, 0⟩, ⟨some "a", some 2017, some 1, 1⟩,
        ⟨some "a", some 2017, some 1, 2⟩, ⟨some "b", some 2017, some 1, 3⟩,
        ⟨some "b", some 2017, some 1, 4⟩]
        (groupKey ⟨some "a", some 2017, some 1, 0⟩) : ℤ) = 3 ∧
      ∃ m ∈ build_groups_by_keys [⟨some "a", some 2017, some 1, 0⟩,
          ⟨some "a", some 2017, some 1, 1⟩, ⟨some "a", some 2017, some 1, 2⟩,
          ⟨some "b", some 2017, some 1, 3⟩, ⟨some "b", some 2017, some 1, 4⟩] 3,
        m.row = ⟨some "a", some 2017, some 1, 0⟩ ∧ (m.group_n : ℤ) = 3) ∧
    ((group_n [⟨some "a", some 2017, some 1, 0⟩, ⟨some "a", some 2017, some 1, 1⟩,
        ⟨some "a", some 2017, some 1, 2⟩, ⟨some "b", some 2017, some 1, 3⟩,
        ⟨some "b", some 2017, some 1, 4⟩]
        (groupKey ⟨some "b", some 2017, some 1, 3⟩) : ℤ) = 3 - 1 ∧
      ∀ m ∈ build_groups_by_keys [⟨some "a", some 2017, some 1, 0⟩,
          ⟨some "a", some 2017, some 1, 1⟩, ⟨some "a", some 2017, some 1, 2⟩,
          ⟨some "b", some 2017, some 1, 3⟩, ⟨some "b", some 2017, some 1, 4⟩] 3,
        groupKey m.row ≠ groupKey ⟨some "b", some 2017, some 1, 3⟩) :=
  ⟨⟨by decide,
    (c3_grouping_threshold [⟨some "a", some 2017, some 1, 0⟩,
        ⟨some "a", some 2017, some 1, 1⟩, ⟨some "a", some 2017, some 1, 2⟩,
        ⟨some "b", some 2017, some 1, 3⟩, ⟨some "b", some 2017, some 1, 4⟩] 3).2
      _ (by decide) (by decide)⟩,
   ⟨by decide,
    (c3_grouping_threshold [⟨some "a", some 2017, some 1, 0⟩,
        ⟨some "a", some 2017, some 1, 1⟩, ⟨some "a", some 2017, some 1, 2⟩,
        ⟨some "b", some 2017, some 1, 3⟩, ⟨some "b", some 2017, some 1, 4⟩] 3).1
      _ (by decide) (by decide)⟩⟩

/-- C7 counterexample: a valid group of three records all priced 0 has
group_mean_ars 0, and its records reach the undervalue computation inside
the comparable table instead of being excluded: no zero-mean guard exists
in the code, so the division is performed with a zero denominator there. -/
theorem c7_counterexample :
    ∃ m ∈ build_groups_by_keys (comp_base
        [⟨some "a", some 2017, some 0, 0⟩, ⟨some "a", some 2017, some 0, 1⟩,
         ⟨some "a", some 2017, some 0, 2⟩]) 3,
      m.group_mean_ars = 0 := by
  refine ⟨⟨⟨some "a", some 2017, some 0, 0⟩,
    group_mean_ars (comp_base
        [⟨some "a", some 2017, some 0, 0⟩, ⟨some "a", some 2017, some 0, 1⟩,
         ⟨some "a", some 2017, some 0, 2⟩])
      (groupKey ⟨some "a", some 2017, some 0, 0⟩),
    group_n (comp_base
        [⟨some "a", some 2017, some 0, 0⟩, ⟨some "a", some 2017, some 0, 1⟩,
         ⟨some "a", some 2017, some 0, 2⟩])
      (groupKey ⟨some "a", some 2017, some 0, 0⟩)⟩, ?_, ?_⟩
  · apply List.mem_filterMap.mpr
    refine ⟨⟨some "a", some 2017, some 0, 0⟩, by decide, ?_⟩
    rw [build_step_eq _ 3 (by decide), if_pos (by decide)]
  · show group_mean_ars _ _ = 0
    have hp : groupPrices (comp_base
        [⟨some "a", some 2017, some 0, 0⟩, ⟨some "a", some 2017, some 0, 1⟩,
         ⟨some "a", some 2017, some 0, 2⟩])
        (groupKey ⟨some "a", some 2017, some 0, 0⟩) = [0, 0, 0] := by decide
    rw [group_mean_ars, group_n, hp]
    norm_num

/-- C7 amended witness: the null dropping instantiated at a concrete table,
where the record with NA title_group is removed and the surviving record
has all three fields non-null. -/
theorem c7_null_guard_amended_witness :
    (⟨some "a", some 2017, some 5, 0⟩ : CompRow) ∈ comp_base
      [⟨some "a", some 2017, some 5, 0⟩, ⟨none, some 2017, some 5, 1⟩,
       ⟨some "a", some 2017, none, 2⟩] ∧
    ((⟨some "a", some 2017, some 5, 0⟩ : CompRow).title_group ≠ none ∧
     (⟨some "a", some 2017, some 5, 0⟩ : CompRow).year ≠ none ∧
     (⟨some "a", some 2017, some 5, 0⟩ : CompRow).price_ars ≠ none) :=
  ⟨by decide,
   (c7_null_guard_amended [⟨some "a", some 2017, some 5, 0⟩,
      ⟨none, some 2017, some 5, 1⟩, ⟨some "a", some 2017, none, 2⟩] 3).1
     _ (by decide)⟩

/-
Opportunity selection (app_freemium.py lines 588-597, identical copy in
utils/scraper.py lines 384-393): undervalue_pct is computed for every
comparable record, the records at or above the threshold are kept, and the
result is sorted descending by undervalue_pct, ties ascending by price_ars.
-/

/-- diff_ars of a comparable record: group mean minus price, a NA price
propagating as in pandas arithmetic. -/
def diff_ars (m : GroupRow) : Option ℚ :=
  m.row.price_ars.map (fun p => m.group_mean_ars - p)

/-- undervalue_pct of a comparable record: diff over mean, times 100, NA
propagating. -/
def undervalue_pct (m : GroupRow) : Option ℚ :=
  (diff_ars m).map (fun d => d / m.group_mean_ars * 100)

/-- The threshold test of the opportunity filter; a NA percentage compares
false, as NaN does in pandas. -/
def oppKeep (pct_threshold : ℚ) (m : GroupRow) : Bool :=
  match undervalue_pct m with
  | some v => pct_threshold ≤ v
  | none => false

/-- Percentage sort key (the selected records all carry non-NA values; the
default only totalizes the function). -/
def uvD (m : GroupRow) : ℚ := (undervalue_pct m).getD 0

/-- Price sort key. -/
def paD (m : GroupRow) : ℚ := m.row.price_ars.getD 0

/-- The comparator of sort_values(by=[undervalue_pct, price_ars],
ascending=[False, True]). -/
def oppLE (a b : GroupRow) : Bool :=
  uvD b < uvD a ∨ (uvD a = uvD b ∧ paD a ≤ paD b)

/-- opp: the filter at the inclusive threshold, then the two-key sort. -/
def opp (comp : List GroupRow) (pct_threshold : ℚ) : List GroupRow :=
  (comp.filter (oppKeep pct_threshold)).mergeSort oppLE

theorem oppLE_trans (a b c : GroupRow) :
    oppLE a b = true → oppLE b c = true → oppLE a c = true := by
  simp only [oppLE, decide_eq_true_eq]
  rintro (h1 | ⟨h1e, h1p⟩) (h2 | ⟨h2e, h2p⟩)
  · exact Or.inl (lt_trans h2 h1)
  · exact Or.inl (h2e ▸ h1)
  · exact Or.inl (h1e ▸ h2)
  · exact Or.inr ⟨h1e.trans h2e, h1p.trans h2p⟩

theorem oppLE_total (a b : GroupRow) : (oppLE a b || oppLE b a) = true := by
  simp only [oppLE, Bool.or_eq_true, decide_eq_true_eq]
  rcases lt_trichotomy (uvD a) (uvD b) with h | h | h
  · exact Or.inr (Or.inl h)
  · rcases le_total (paD a) (paD b) with hp | hp
    · exact Or.inl (Or.inr ⟨h, hp⟩)
    · exact Or.inr (Or.inr ⟨h.symm, hp⟩)
  · exact Or.inl (Or.inl h)

/-- C4: a comparable record is selected as an opportunity exactly when its
price is present and (group_mean_ars - price_ars) / group_mean_ars * 100 is
at or above the threshold (so the boundary is inclusive and anything
strictly below, in particular one unit below, is excluded), and the
opportunity table is ordered descending by undervalue_pct with ties broken
ascending by price_ars. -/
theorem c4_opportunity_boundary (comp : List GroupRow) (pct_threshold : ℚ) :
    (∀ m, m ∈ opp comp pct_threshold ↔
      (m ∈ comp ∧ ∃ p, m.row.price_ars = some p ∧
        pct_threshold ≤ (m.group_mean_ars - p) / m.group_mean_ars * 100)) ∧
    (opp comp pct_threshold).Pairwise (fun a b =>
      uvD b < uvD a ∨ (uvD a = uvD b ∧ paD a ≤ paD b)) := by
  constructor
  · intro m
    rw [opp, List.mem_mergeSort, List.mem_filter]
    constructor
    · rintro ⟨hm, hkeep⟩
      refine ⟨hm, ?_⟩
      rw [oppKeep] at hkeep
      rcases hq : m.row.price_ars with _ | ⟨p⟩
      · rw [undervalue_pct, diff_ars, hq] at hkeep
        simp at hkeep
      · refine ⟨p, rfl, ?_⟩
        rw [undervalue_pct, diff_ars, hq] at hkeep
        simpa using hkeep
    · rintro ⟨hm, p, hp, hth⟩
      refine ⟨hm, ?_⟩
      rw [oppKeep, undervalue_pct, diff_ars, hp]
      simpa using hth
  · have hs := List.sorted_mergeSort oppLE_trans oppLE_total
      (comp.filter (oppKeep pct_threshold))
    rw [opp]
    refine hs.imp ?_
    intro a b hab
    simpa only [oppLE, decide_eq_true_eq] using hab

/-- C4 witness: the membership characterization instantiated at a concrete
comparable record priced 85 against a group mean of 100, at threshold 15:
undervalue is exactly 15 percent, the inclusive boundary. -/
theorem c4_opportunity_boundary_witness :
    (⟨⟨some "a", some 2017, some 85, 0⟩, 100, 3⟩ : GroupRow)
        ∈ opp [⟨⟨some "a", some 2017, some 85, 0⟩, 100, 3⟩] 15 ↔
      ((⟨⟨some "a", some 2017, some 85, 0⟩, 100, 3⟩ : GroupRow)
          ∈ [(⟨⟨some "a", some 2017, some 85, 0⟩, 100, 3⟩ : GroupRow)] ∧
        ∃ p, (⟨⟨some "a", some 2017, some 85, 0⟩, 100, 3⟩ : GroupRow).row.price_ars
            = some p ∧
          (15 : ℚ) ≤ ((⟨⟨some "a", some 2017, some 85, 0⟩, 100, 3⟩ : GroupRow).group_mean_ars - p)
            / (⟨⟨some "a", some 2017, some 85, 0⟩, 100, 3⟩ : GroupRow).group_mean_ars * 100) :=
  (c4_opportunity_boundary [⟨⟨some "a", some 2017, some 85, 0⟩, 100, 3⟩] 15).1 _

end MLScrape
